import Mathlib

/-!
# Verification of the pricing-table renderer (`hack/code/prices_gen.go`)

This file gives a shallow embedding of the renderer core of the repository:
the function `writePricing` and its helper `newline`.  Go byte strings are
modelled as Lean `String`s (every string handled by the program is a sequence
of characters; the identification of one character with one byte is exact for
the ASCII data the generator manipulates, and codepoint-wise lexicographic
order coincides with UTF-8 byte-wise order).  The Go `float64` prices are
modelled as exact rationals `ℚ`; the only use the renderer makes of a price
is formatting it with `%f` (fixed-point, six fractional digits), which is
modelled by `formatFloat`.  The fallible parts (`log.Fatalf` aborts) are
modelled by `Except String`: an `.error` result corresponds to the process
aborting before any output file is produced.
-/

namespace PricesGen

/-- Splitting a character sequence at every occurrence of the separator
character.  This is Go's `strings.Split(s, sep)` for a one-character
separator: the result always has one more element than the number of
separator occurrences, so `splitOnChar '.' "a.b"` is `[['a'], ['b']]`,
`splitOnChar '.' "ab"` is `[['a','b']]` and `splitOnChar '.' ""` is `[[]]`. -/
def splitOnChar (sep : Char) : List Char → List (List Char)
  | [] => [[]]
  | c :: cs =>
    if c = sep then [] :: splitOnChar sep cs
    else
      match splitOnChar sep cs with
      | [] => [[c]]
      | l :: ls => (c :: l) :: ls

/-- Byte-wise lexicographic `≤` on character sequences, the order used by
Go's `sort.Strings` (for valid UTF-8, comparing codepoints and comparing the
encoded bytes give the same order). -/
def leChars : List Char → List Char → Bool
  | [], _bs => true
  | _a :: _as, [] => false
  | a :: as, b :: bs => if a < b then true else if b < a then false else leChars as bs

/-- Byte-wise lexicographic strict `<` on character sequences. -/
def ltChars : List Char → List Char → Bool
  | [], [] => false
  | [], _b :: _bs => true
  | _a :: _as, [] => false
  | a :: as, b :: bs => if a < b then true else if b < a then false else ltChars as bs

/-- Lexicographic `≤` on strings (Go `s1 <= s2` on byte strings). -/
def strLe (a b : String) : Bool := leChars a.data b.data

/-- Lexicographic `<` on strings (Go `s1 < s2` on byte strings). -/
def strLt (a b : String) : Bool := ltChars a.data b.data

/-- The ordering relation used by the sort, as a proposition. -/
def StrLeRel : String → String → Prop := fun a b => strLe a b = true

/-- The strict lexicographic order on strings, as a proposition. -/
def StrLtRel : String → String → Prop := fun a b => strLt a b = true

instance instStrLeRelDecidable : DecidableRel StrLeRel := by
  unfold StrLeRel; infer_instance

instance instStrLtRelDecidable : DecidableRel StrLtRel := by
  unfold StrLtRel; infer_instance

/-- Go's `sort.Strings`: the identifiers in ascending lexicographic order.
`sort.Strings` is a comparison sort for a total order in which equal keys are
identical strings, so its result is the unique `≤`-sorted permutation of the
input; insertion sort computes exactly that list. -/
def sortStrings (l : List String) : List String :=
  List.insertionSort StrLeRel l

/-- Go `%d` rendering of a natural number (decimal digits). -/
def natRepr (n : Nat) : String := Nat.repr n

/-- The fractional part of `%f`: six digits, padded on the left with zeros. -/
def pad6 (n : Nat) : String :=
  let s := natRepr n
  String.mk (List.replicate (6 - s.length) '0') ++ s

/-- The number of micro-units of a non-negative rational: `q · 10^6` rounded
to the nearest integer (halves rounding up), computed as
`⌊(2·num·10^6 + den) / (2·den)⌋` on the numerator and denominator so that the
definition evaluates by integer arithmetic alone. -/
def microsOf (q : ℚ) : Nat :=
  ((2 * q.num * 1000000 + (q.den : Int)) / (2 * (q.den : Int))).toNat

/-- Go `fmt` `%f` rendering of a non-negative value: the value is scaled by
`10^6`, rounded to the nearest integer (the micro-unit count), and printed as
`<whole>.<six fractional digits>`. -/
def formatFloatNonneg (q : ℚ) : String :=
  let micros : Nat := microsOf q
  natRepr (micros / 1000000) ++ "." ++ pad6 (micros % 1000000)

/-- Go `fmt` `%f` rendering of a `float64` price (fixed-point notation with
six fractional digits, as used by `fmt.Fprintf(src, "\x22%s\x22:%f, ", ...)`). -/
def formatFloat (q : ℚ) : String :=
  if q < 0 then "-" ++ formatFloatNonneg (-q) else formatFloatNonneg q

/-- The text written for one priced instance type:
`fmt.Fprintf(src, "\x22%s\x22:%f, ", instanceName, price)`. -/
def entryString (instanceName : String) (price : ℚ) : String :=
  "\"" ++ instanceName ++ "\":" ++ formatFloat price ++ ", "

/-- `newline` (`prices_gen.go:132-144`) appends a newline to the buffer iff
the buffer is non-empty and does not already end with `'\n'`.  (In the
empty-buffer branch the Go code calls `fmt.Println(src)`, which writes to
standard output and leaves the buffer itself untouched, so the buffer is
returned unchanged.) -/
def newline (src : String) : String :=
  if src.data = [] then src
  else if src.data.getLast? = some '\n' then src
  else src ++ "\n"

/-- The mutable state of `writePricing`'s loop: the output buffer `src`, the
running line-length counter `lineLen` and the family of the previously
emitted entry `previousFamily`.  The `entries` field is ghost instrumentation
recording, in order, the identifiers for which the entry write
(`prices_gen.go:117`) executed; it does not influence the produced text. -/
structure WPState where
  src : String
  lineLen : Nat
  previousFamily : String
  entries : List String
deriving Repr

/-- The body of `writePricing`'s loop after the malformed-identifier check
and the successful price lookup (`prices_gen.go:108-125`): emit the family
comment when the family changed, then the entry, then wrap the line once the
running counter exceeds 80. -/
def emitEntry (st : WPState) (instanceName family : String) (price : ℚ) : WPState :=
  let st1 : WPState :=
    if family ≠ st.previousFamily then
      { st with
        src := newline st.src ++ "// " ++ family ++ " family\n"
        lineLen := 0
        previousFamily := family }
    else st
  let e := entryString instanceName price
  let st2 : WPState :=
    { st1 with
      src := st1.src ++ e
      lineLen := st1.lineLen + e.length
      entries := st1.entries ++ [instanceName] }
  if 80 < st2.lineLen then { st2 with src := st2.src ++ "\n", lineLen := 0 } else st2

/-- One iteration of `writePricing`'s loop (`prices_gen.go:98-126`): split
the identifier on `'.'`; abort (`log.Fatalf`) unless there are exactly two
segments; skip the identifier silently when the price lookup fails; emit the
entry otherwise.  `getPrice i = none` models `getPrice` returning an error. -/
def processInstance (getPrice : String → Option ℚ) (st : WPState) (instanceName : String) :
    Except String WPState :=
  match splitOnChar '.' instanceName.data with
  | [family, _size] =>
    match getPrice instanceName with
    | none => .ok st
    | some price => .ok (emitEntry st instanceName (String.mk family) price)
  | segs =>
    .error ("parsing instance family " ++ instanceName ++ ", got ["
      ++ String.intercalate " " (segs.map String.mk) ++ "]")

/-- The whole loop of `writePricing` over the (sorted) identifier list. -/
def processAll (getPrice : String → Option ℚ) : WPState → List String → Except String WPState
  | st, [] => .ok st
  | st, n :: rest =>
    match processInstance getPrice st n with
    | .error e => .error e
    | .ok st' => processAll getPrice st' rest

/-- The loop state right after `fmt.Fprintf(src, "var %s = map[string]float64{\n", varName)`,
`lineLen := 0` and `previousFamily := ""` (`prices_gen.go:94-97`). -/
def initialState (varName : String) : WPState :=
  { src := "var " ++ varName ++ " = map[string]float64\x7b\n"
    lineLen := 0
    previousFamily := ""
    entries := [] }

/-- `writePricing` up to (and excluding) the closing of the map literal:
write the `var <name> = map[string]float64{` header, sort the identifiers,
and run the loop. -/
def writePricingState (instanceNames : List String) (varName : String)
    (getPrice : String → Option ℚ) : Except String WPState :=
  processAll getPrice (initialState varName) (sortStrings instanceNames)

/-- `writePricing` (`prices_gen.go:93-129`): the buffer contents after the
final `fmt.Fprintln(src, "\n}")` and `fmt.Fprintln(src)`, or the fatal error
raised for a malformed identifier. -/
def writePricing (instanceNames : List String) (varName : String)
    (getPrice : String → Option ℚ) : Except String String :=
  match writePricingState instanceNames varName getPrice with
  | .error e => .error e
  | .ok st => .ok (st.src ++ "\n\x7d\n" ++ "\n")

/-- The identifiers whose entries are emitted into the output, in emission
order (empty when the renderer aborts, in which case no output exists). -/
def writePricingEntries (instanceNames : List String) (varName : String)
    (getPrice : String → Option ℚ) : List String :=
  match writePricingState instanceNames varName getPrice with
  | .error _ => []
  | .ok st => st.entries

/-- A well-formed identifier splits on `'.'` into exactly two segments
(the check at `prices_gen.go:99-102`). -/
def wellFormed (instanceName : String) : Prop :=
  (splitOnChar '.' instanceName.data).length = 2

instance (n : String) : Decidable (wellFormed n) := by
  unfold wellFormed; infer_instance

/-! ## The lexicographic order is a total order -/

theorem leChars_total : ∀ a b : List Char, leChars a b = true ∨ leChars b a = true
  | [], _ => Or.inl rfl
  | _ :: _, [] => Or.inr rfl
  | a :: as, b :: bs => by
    rcases lt_trichotomy a b with h | h | h
    · left; simp [leChars, h]
    · subst h
      rcases leChars_total as bs with ih | ih
      · left; simp [leChars, lt_irrefl, ih]
      · right; simp [leChars, lt_irrefl, ih]
    · right; simp [leChars, h]

theorem leChars_trans : ∀ {a b c : List Char},
    leChars a b = true → leChars b c = true → leChars a c = true
  | [], _, _, _, _ => rfl
  | _ :: _, [], _, hab, _ => by simp [leChars] at hab
  | _ :: _, _ :: _, [], _, hbc => by simp [leChars] at hbc
  | a :: as, b :: bs, c :: cs, hab, hbc => by
    simp only [leChars] at hab hbc ⊢
    rcases lt_trichotomy a b with h1 | h1 | h1
    · rcases lt_trichotomy b c with h2 | h2 | h2
      · simp [h1.trans h2]
      · subst h2; simp [h1]
      · simp [if_neg (asymm h2), if_pos h2] at hbc
    · subst h1
      simp only [if_neg (lt_irrefl _)] at hab
      rcases lt_trichotomy a c with h3 | h3 | h3
      · simp [h3]
      · subst h3
        simp only [if_neg (lt_irrefl _)] at hbc ⊢
        exact leChars_trans hab hbc
      · simp [if_neg (asymm h3), if_pos h3] at hbc
    · simp [if_neg (asymm h1), if_pos h1] at hab

theorem leChars_antisymm : ∀ {a b : List Char},
    leChars a b = true → leChars b a = true → a = b
  | [], [], _, _ => rfl
  | [], _ :: _, _, hba => by simp [leChars] at hba
  | _ :: _, [], hab, _ => by simp [leChars] at hab
  | a :: as, b :: bs, hab, hba => by
    simp only [leChars] at hab hba
    rcases lt_trichotomy a b with h | h | h
    · simp [if_neg (asymm h), if_pos h] at hba
    · subst h
      simp only [if_neg (lt_irrefl a)] at hab hba
      rw [leChars_antisymm hab hba]
    · simp [if_neg (asymm h), if_pos h] at hab

theorem ltChars_iff : ∀ {a b : List Char},
    ltChars a b = true ↔ (leChars a b = true ∧ a ≠ b)
  | [], [] => by simp [ltChars, leChars]
  | [], _ :: _ => by simp [ltChars, leChars]
  | _ :: _, [] => by simp [ltChars, leChars]
  | a :: as, b :: bs => by
    simp only [ltChars, leChars]
    rcases lt_trichotomy a b with h | h | h
    · simp [if_pos h, ne_of_lt h]
    · subst h
      simp only [if_neg (lt_irrefl _)]
      rw [ltChars_iff]
      simp
    · simp [if_neg (asymm h), if_pos h]

theorem string_eq_of_data_eq {a b : String} (h : a.data = b.data) : a = b := by
  cases a
  cases b
  exact congrArg String.mk h

instance instStrLeRelTotal : IsTotal String StrLeRel :=
  ⟨fun a b => leChars_total a.data b.data⟩

instance instStrLeRelTrans : IsTrans String StrLeRel :=
  ⟨fun _ _ _ => leChars_trans⟩

instance instStrLeRelAntisymm : IsAntisymm String StrLeRel :=
  ⟨fun _ _ h1 h2 => string_eq_of_data_eq (leChars_antisymm h1 h2)⟩

theorem strLtRel_iff {a b : String} : StrLtRel a b ↔ (StrLeRel a b ∧ a ≠ b) := by
  unfold StrLtRel StrLeRel strLt strLe
  rw [ltChars_iff]
  constructor
  · exact fun ⟨h1, h2⟩ => ⟨h1, fun he => h2 (he ▸ rfl)⟩
  · exact fun ⟨h1, h2⟩ => ⟨h1, fun he => h2 (string_eq_of_data_eq he)⟩

/-- `sortStrings` permutes its input. -/
theorem sortStrings_perm (l : List String) : (sortStrings l).Perm l :=
  List.perm_insertionSort StrLeRel l

/-- `sortStrings` sorts. -/
theorem sortStrings_sorted (l : List String) : List.Sorted StrLeRel (sortStrings l) :=
  List.sorted_insertionSort StrLeRel l

/-- Two inputs that are permutations of each other sort to the same list. -/
theorem sortStrings_eq_of_perm {l₁ l₂ : List String} (h : l₁.Perm l₂) :
    sortStrings l₁ = sortStrings l₂ :=
  List.eq_of_perm_of_sorted ((sortStrings_perm l₁).trans (h.trans (sortStrings_perm l₂).symm))
    (sortStrings_sorted l₁) (sortStrings_sorted l₂)

/-! ## Basic facts about the loop -/

theorem str_append_assoc (a b c : String) : (a ++ b) ++ c = a ++ (b ++ c) :=
  string_eq_of_data_eq (by simp [String.data_append, List.append_assoc])

/-- A well-formed identifier yields exactly two segments. -/
theorem wellFormed_iff {n : String} :
    wellFormed n ↔ ∃ f s, splitOnChar '.' n.data = [f, s] := by
  unfold wellFormed
  constructor
  · intro h
    rcases hsp : splitOnChar '.' n.data with _ | ⟨f, _ | ⟨s, _ | ⟨t, r⟩⟩⟩ <;>
      simp [hsp] at h ⊢
  · rintro ⟨f, s, h⟩
    simp [h]

theorem processInstance_skip {g : String → Option ℚ} {st : WPState} {n : String}
    {f s : List Char} (hsp : splitOnChar '.' n.data = [f, s]) (hg : g n = none) :
    processInstance g st n = .ok st := by
  simp [processInstance, hsp, hg]

theorem processInstance_emit {g : String → Option ℚ} {st : WPState} {n : String}
    {f s : List Char} {p : ℚ} (hsp : splitOnChar '.' n.data = [f, s]) (hg : g n = some p) :
    processInstance g st n = .ok (emitEntry st n (String.mk f) p) := by
  simp [processInstance, hsp, hg]

theorem processInstance_malformed (g : String → Option ℚ) (st : WPState) {n : String}
    (h : ¬ wellFormed n) :
    ∃ t, processInstance g st n = .error (("parsing instance family " ++ n) ++ t) := by
  unfold wellFormed at h
  rcases hsp : splitOnChar '.' n.data with _ | ⟨f, _ | ⟨s, _ | ⟨t, r⟩⟩⟩
  · refine ⟨", got [" ++ String.intercalate " " (([] : List (List Char)).map String.mk)
      ++ "]", ?_⟩
    simp only [processInstance, hsp]
    congr 1
    apply string_eq_of_data_eq
    simp [String.data_append, List.append_assoc]
  · refine ⟨", got [" ++ String.intercalate " " ([f].map String.mk) ++ "]", ?_⟩
    simp only [processInstance, hsp]
    congr 1
    apply string_eq_of_data_eq
    simp [String.data_append, List.append_assoc]
  · exact absurd (by rw [hsp] ; rfl) h
  · refine ⟨", got [" ++ String.intercalate " " ((f :: s :: t :: r).map String.mk)
      ++ "]", ?_⟩
    simp only [processInstance, hsp]
    congr 1
    apply string_eq_of_data_eq
    simp [String.data_append, List.append_assoc]

theorem processAll_cons_ok {g : String → Option ℚ} {st st' : WPState} {n : String}
    {rest : List String} (h : processAll g st (n :: rest) = .ok st') :
    ∃ st1, processInstance g st n = .ok st1 ∧ processAll g st1 rest = .ok st' := by
  cases hpi : processInstance g st n with
  | error e => simp [processAll, hpi] at h
  | ok st1 => exact ⟨st1, rfl, by simpa [processAll, hpi] using h⟩

/-- The entry write appends exactly the processed identifier to the ghost log. -/
theorem emitEntry_entries (st : WPState) (n f : String) (p : ℚ) :
    (emitEntry st n f p).entries = st.entries ++ [n] := by
  simp only [emitEntry]
  split_ifs <;> rfl

/-- The two possible results of `newline`. -/
theorem newline_eq (s : String) : newline s = s ∨ newline s = s ++ "\n" := by
  unfold newline
  split_ifs <;> simp

theorem str_append_empty (a : String) : a ++ "" = a :=
  string_eq_of_data_eq (by simp [String.data_append])

theorem append_tail {a x : String} (h : ∃ t, x = a ++ t) (b : String) :
    ∃ t, x ++ b = a ++ t := by
  obtain ⟨t, ht⟩ := h
  exact ⟨t ++ b, by rw [ht, str_append_assoc]⟩

theorem newline_src_pre (s : String) : ∃ t, newline s = s ++ t := by
  rcases newline_eq s with h | h
  · exact ⟨"", by rw [h, str_append_empty]⟩
  · exact ⟨"\n", h⟩

/-- The entry write only appends to the buffer. -/
theorem emitEntry_src_pre (st : WPState) (n f : String) (p : ℚ) :
    ∃ t, (emitEntry st n f p).src = st.src ++ t := by
  simp only [emitEntry]
  split_ifs
  · exact append_tail (append_tail (append_tail (append_tail (append_tail
      (newline_src_pre st.src) "// ") f) " family\n") (entryString n p)) "\n"
  · exact append_tail (append_tail (append_tail (append_tail
      (newline_src_pre st.src) "// ") f) " family\n") (entryString n p)
  · exact append_tail (append_tail ⟨"", (str_append_empty st.src).symm⟩ (entryString n p)) "\n"
  · exact append_tail ⟨"", (str_append_empty st.src).symm⟩ (entryString n p)

theorem processInstance_ok_entries {g : String → Option ℚ} {st st1 : WPState} {n : String}
    (h : processInstance g st n = .ok st1) :
    st1.entries = st.entries ++ (if (g n).isSome then [n] else []) := by
  by_cases hwf : wellFormed n
  · obtain ⟨f, s, hsp⟩ := wellFormed_iff.mp hwf
    cases hg : g n with
    | none =>
      rw [processInstance_skip hsp hg] at h
      injection h with h'
      simp [← h', hg]
    | some p =>
      rw [processInstance_emit hsp hg] at h
      injection h with h'
      rw [← h', emitEntry_entries]
      simp [hg]
  · obtain ⟨t, he⟩ := processInstance_malformed g st hwf
    rw [he] at h
    exact absurd h (by simp)

/-- In a successful run, the emitted identifiers are exactly those of the
processed list whose price lookup succeeds, in list order. -/
theorem processAll_ok_entries {g : String → Option ℚ} :
    ∀ {l : List String} {st st' : WPState}, processAll g st l = .ok st' →
      st'.entries = st.entries ++ l.filter (fun n => (g n).isSome)
  | [], st, st', h => by
    simp only [processAll, Except.ok.injEq] at h
    simp [h.symm]
  | n :: rest, st, st', h => by
    obtain ⟨st1, hpi, hrest⟩ := processAll_cons_ok h
    rw [processAll_ok_entries hrest, processInstance_ok_entries hpi]
    cases hg : g n <;> simp [hg, List.filter, str_append_assoc]

/-- A list of well-formed identifiers is processed without a fatal error. -/
theorem processAll_ok_of_wf {g : String → Option ℚ} :
    ∀ (l : List String) (st : WPState), (∀ n ∈ l, wellFormed n) →
      ∃ st', processAll g st l = .ok st'
  | [], st, _ => ⟨st, rfl⟩
  | n :: rest, st, h => by
    obtain ⟨f, s, hsp⟩ := wellFormed_iff.mp (h n (List.mem_cons_self n rest))
    have hrest := fun m hm => h m (List.mem_cons_of_mem n hm)
    cases hg : g n with
    | none =>
      obtain ⟨st', h'⟩ := processAll_ok_of_wf (g := g) rest st hrest
      exact ⟨st', by simp [processAll, processInstance_skip hsp hg, h']⟩
    | some p =>
      obtain ⟨st', h'⟩ :=
        processAll_ok_of_wf (g := g) rest (emitEntry st n (String.mk f) p) hrest
      exact ⟨st', by simp [processAll, processInstance_emit hsp hg, h']⟩

/-- A malformed identifier anywhere in the list makes the loop abort with a
message naming a malformed identifier. -/
theorem processAll_error_of_malformed {g : String → Option ℚ} :
    ∀ {l : List String} (st : WPState), (∃ n ∈ l, ¬ wellFormed n) →
      ∃ m t, m ∈ l ∧ ¬ wellFormed m ∧
        processAll g st l = .error (("parsing instance family " ++ m) ++ t)
  | [], _, h => by simp at h
  | n :: rest, st, h => by
    by_cases hn : wellFormed n
    · obtain ⟨m, hm, hmal⟩ := h
      rcases List.mem_cons.mp hm with rfl | hm'
      · exact absurd hn hmal
      obtain ⟨f, s, hsp⟩ := wellFormed_iff.mp hn
      cases hg : g n with
      | none =>
        obtain ⟨m', t, hmem, hmal', herr⟩ :=
          processAll_error_of_malformed (g := g) st ⟨m, hm', hmal⟩
        exact ⟨m', t, List.mem_cons_of_mem n hmem, hmal',
          by simp [processAll, processInstance_skip hsp hg, herr]⟩
      | some p =>
        obtain ⟨m', t, hmem, hmal', herr⟩ :=
          processAll_error_of_malformed (g := g) (emitEntry st n (String.mk f) p)
            ⟨m, hm', hmal⟩
        exact ⟨m', t, List.mem_cons_of_mem n hmem, hmal',
          by simp [processAll, processInstance_emit hsp hg, herr]⟩
    · obtain ⟨t, herr⟩ := processInstance_malformed g st hn
      exact ⟨n, t, List.mem_cons_self n rest, hn, by simp [processAll, herr]⟩

/-- The loop only ever appends to the output buffer. -/
theorem processInstance_src_mono {g : String → Option ℚ} {st st1 : WPState} {n : String}
    (h : processInstance g st n = .ok st1) : ∃ t, st1.src = st.src ++ t := by
  by_cases hwf : wellFormed n
  · obtain ⟨f, s, hsp⟩ := wellFormed_iff.mp hwf
    cases hg : g n with
    | none =>
      rw [processInstance_skip hsp hg] at h
      injection h with h'
      exact ⟨"", by rw [← h', str_append_empty]⟩
    | some p =>
      rw [processInstance_emit hsp hg] at h
      injection h with h'
      rw [← h']
      exact emitEntry_src_pre st n (String.mk f) p
  · obtain ⟨t, he⟩ := processInstance_malformed g st hwf
    rw [he] at h
    exact absurd h (by simp)

theorem processAll_src_mono {g : String → Option ℚ} :
    ∀ {l : List String} {st st' : WPState}, processAll g st l = .ok st' →
      ∃ t, st'.src = st.src ++ t
  | [], st, st', h => by
    simp only [processAll, Except.ok.injEq] at h
    exact ⟨"", by simp [h.symm]⟩
  | n :: rest, st, st', h => by
    obtain ⟨st1, hpi, hrest⟩ := processAll_cons_ok h
    obtain ⟨t1, h1⟩ := processInstance_src_mono hpi
    obtain ⟨t2, h2⟩ := processAll_src_mono hrest
    exact ⟨t1 ++ t2, by rw [h2, h1, str_append_assoc]⟩

/-- The loop consults the lookup function only at the identifiers of the
processed list. -/
theorem processInstance_congr {g₁ g₂ : String → Option ℚ} {n : String}
    (h : g₁ n = g₂ n) (st : WPState) :
    processInstance g₁ st n = processInstance g₂ st n := by
  unfold processInstance
  rw [h]

theorem processAll_congr {g₁ g₂ : String → Option ℚ} :
    ∀ {l : List String}, (∀ n ∈ l, g₁ n = g₂ n) → ∀ st : WPState,
      processAll g₁ st l = processAll g₂ st l
  | [], _, _ => rfl
  | n :: rest, h, st => by
    simp only [processAll]
    rw [processInstance_congr (h n (List.mem_cons_self n rest)) st]
    cases processInstance g₂ st n with
    | error e => rfl
    | ok st1 => exact processAll_congr (fun m hm => h m (List.mem_cons_of_mem n hm)) st1

/-- The emitted-identifier list is empty (abort) or exactly the priced
identifiers of the sorted input, in sorted order. -/
theorem writePricingEntries_cases (ids : List String) (v : String) (g : String → Option ℚ) :
    writePricingEntries ids v g = [] ∨
      writePricingEntries ids v g = (sortStrings ids).filter (fun n => (g n).isSome) := by
  unfold writePricingEntries writePricingState
  cases h : processAll g (initialState v) (sortStrings ids) with
  | error e => exact Or.inl rfl
  | ok st' =>
    right
    have := processAll_ok_entries h
    simp only [initialState, List.nil_append] at this
    simpa using this

/-! ## Claim theorems -/

/-- **C1**: `writePricing` is deterministic: with the same identifier list
and the same lookup results on those identifiers, two invocations produce
byte-identical output buffers. -/
theorem C1_render_deterministic (ids : List String) (v : String)
    (g₁ g₂ : String → Option ℚ) (h : ∀ n ∈ ids, g₁ n = g₂ n) :
    writePricing ids v g₁ = writePricing ids v g₂ := by
  unfold writePricing writePricingState
  rw [processAll_congr (fun n hn => h n ((sortStrings_perm ids).subset hn)) (initialState v)]

theorem C1_witness :
    (∀ n ∈ ["a.b"], (fun _ : String => some (1 : ℚ)) n
        = (fun m : String => if m = "a.b" then some (1 : ℚ) else none) n)
      ∧ writePricing ["a.b"] "v" (fun _ : String => some (1 : ℚ))
        = writePricing ["a.b"] "v" (fun m : String => if m = "a.b" then some (1 : ℚ) else none) :=
  ⟨by decide, C1_render_deterministic ["a.b"] "v" _ _ (by decide)⟩

/-- **C10**: the renderer sorts internally, so inputs that are permutations
of each other (with the same lookup) produce identical output buffers. -/
theorem C10_permutation_invariant (ids₁ ids₂ : List String) (v : String)
    (g : String → Option ℚ) (h : ids₁.Perm ids₂) :
    writePricing ids₁ v g = writePricing ids₂ v g := by
  unfold writePricing writePricingState
  rw [sortStrings_eq_of_perm h]

theorem C10_witness :
    (["a.b", "b.c"] : List String).Perm ["b.c", "a.b"]
      ∧ writePricing ["a.b", "b.c"] "v" (fun _ : String => some (1 : ℚ))
        = writePricing ["b.c", "a.b"] "v" (fun _ : String => some (1 : ℚ)) :=
  ⟨by decide, C10_permutation_invariant _ _ "v" _ (by decide)⟩

/-- **C2 (as stated) is false**: a duplicated identifier is emitted twice, so
the emitted entries are not *strictly* ascending for every input sequence of
well-formed identifiers. -/
theorem C2_counterexample :
    writePricingEntries ["a.b", "a.b"] "v" (fun _ : String => some (1 : ℚ)) = ["a.b", "a.b"]
      ∧ ¬ List.Sorted StrLtRel
          (writePricingEntries ["a.b", "a.b"] "v" (fun _ : String => some (1 : ℚ))) :=
  ⟨rfl, by decide⟩

/-- **C2 (amended)**: for every duplicate-free input list the emitted entries
appear in strictly ascending lexicographic order of identifier (for an input
with duplicates the order is still non-decreasing, but not strict). -/
theorem C2_entries_strictly_sorted (ids : List String) (v : String)
    (g : String → Option ℚ) (h : ids.Nodup) :
    List.Sorted StrLtRel (writePricingEntries ids v g) := by
  rcases writePricingEntries_cases ids v g with he | he <;> rw [he]
  · exact List.sorted_nil
  · have hsorted : List.Sorted StrLeRel
        ((sortStrings ids).filter (fun n => (g n).isSome)) :=
      List.Pairwise.filter _ (sortStrings_sorted ids)
    have hnodup : ((sortStrings ids).filter (fun n => (g n).isSome)).Nodup :=
      List.Nodup.filter _ ((sortStrings_perm ids).symm.nodup h)
    exact (hsorted.and hnodup).imp (fun hab => strLtRel_iff.mpr hab)

theorem C2_witness :
    (["b.c", "a.b"] : List String).Nodup
      ∧ List.Sorted StrLtRel
          (writePricingEntries ["b.c", "a.b"] "v" (fun _ : String => some (1 : ℚ))) :=
  ⟨by decide, C2_entries_strictly_sorted _ "v" _ (by decide)⟩

/-- **C3**: an identifier whose lookup signals not-found is skipped silently:
no entry for it is emitted anywhere, and (for well-formed input) the renderer
completes without an error. -/
theorem C3_lookup_miss_skipped (ids : List String) (v : String)
    (g : String → Option ℚ) (x : String)
    (hwf : ∀ n ∈ ids, wellFormed n) (hx : g x = none) :
    x ∉ writePricingEntries ids v g ∧ ∃ out, writePricing ids v g = .ok out := by
  obtain ⟨st', hok⟩ := processAll_ok_of_wf (g := g) (sortStrings ids) (initialState v)
    (fun n hn => hwf n ((sortStrings_perm ids).subset hn))
  constructor
  · intro hmem
    unfold writePricingEntries writePricingState at hmem
    rw [hok] at hmem
    have hmem' : x ∈ st'.entries := hmem
    rw [processAll_ok_entries hok] at hmem'
    simp only [initialState, List.nil_append] at hmem'
    have := List.of_mem_filter hmem'
    rw [hx] at this
    simp at this
  · unfold writePricing writePricingState
    rw [hok]
    exact ⟨_, rfl⟩

theorem C3_witness :
    (∀ n ∈ ["x.y", "a.b"], wellFormed n)
      ∧ (fun m : String => if m = "a.b" then some (1 : ℚ) else none) "x.y" = none
      ∧ ("x.y" ∉ writePricingEntries ["x.y", "a.b"] "v"
            (fun m : String => if m = "a.b" then some (1 : ℚ) else none)
          ∧ ∃ out, writePricing ["x.y", "a.b"] "v"
              (fun m : String => if m = "a.b" then some (1 : ℚ) else none) = .ok out) :=
  ⟨by decide, by decide,
    C3_lookup_miss_skipped ["x.y", "a.b"] "v" _ "x.y" (by decide) (by decide)⟩

/-- **C4**: an identifier that does not split on `'.'` into exactly two
segments makes the renderer abort with an error message naming a malformed
identifier; no output buffer is produced. -/
theorem C4_malformed_aborts (ids : List String) (v : String) (g : String → Option ℚ)
    (h : ∃ n ∈ ids, ¬ wellFormed n) :
    ∃ m t, m ∈ ids ∧ ¬ wellFormed m ∧
      writePricing ids v g = .error (("parsing instance family " ++ m) ++ t) := by
  obtain ⟨n, hn, hmal⟩ := h
  obtain ⟨m, t, hmem, hmal', herr⟩ := processAll_error_of_malformed (g := g) (initialState v)
    ⟨n, (sortStrings_perm ids).symm.subset hn, hmal⟩
  refine ⟨m, t, (sortStrings_perm ids).subset hmem, hmal', ?_⟩
  unfold writePricing writePricingState
  rw [herr]

theorem C4_witness :
    (∃ n ∈ ["abc", "a.b"], ¬ wellFormed n)
      ∧ ∃ m t, m ∈ ["abc", "a.b"] ∧ ¬ wellFormed m ∧
          writePricing ["abc", "a.b"] "v" (fun _ : String => some (1 : ℚ))
            = .error (("parsing instance family " ++ m) ++ t) :=
  ⟨by decide, C4_malformed_aborts ["abc", "a.b"] "v" _ (by decide)⟩

/-! ## Observing the output text: substring occurrences and lines -/

/-- `listStartsWith pat l` holds when `pat` is a prefix of `l`. -/
def listStartsWith : List Char → List Char → Bool
  | [], _l => true
  | _p :: _ps, [] => false
  | p :: ps, c :: cs => if p = c then listStartsWith ps cs else false

/-- All positions (character offsets) at which `pat` occurs in `s`. -/
def occIdxs (s pat : String) : List Nat :=
  (List.range (s.data.length + 1)).filter (fun i => listStartsWith pat.data (s.data.drop i))

/-- The number of occurrences of `pat` in `s`. -/
def substrCount (s pat : String) : Nat := (occIdxs s pat).length

/-- The position of the first occurrence of `pat` in `s`
(one past the end when there is none). -/
def firstIdx (s pat : String) : Nat := (occIdxs s pat).headD (s.data.length + 1)

/-- `strEndsWith s pat` holds when `s` ends with `pat`. -/
def strEndsWith (s pat : String) : Bool :=
  listStartsWith pat.data.reverse s.data.reverse

/-- The lines of a text: the maximal `'\n'`-free segments (a trailing newline
contributes a final empty line, exactly as `strings.Split(s, "\n")` would). -/
def linesOf (s : String) : List (List Char) := splitOnChar '\n' s.data

/-! ## The family-comment branch -/

theorem newline_of_ends_nl {s : String} (h : s.data.getLast? = some '\n') :
    newline s = s := by
  unfold newline
  have hne : s.data ≠ [] := by
    intro he
    rw [he] at h
    simp at h
  rw [if_neg hne, if_pos h]

theorem initial_src_ends_nl (v : String) :
    (initialState v).src.data.getLast? = some '\n' := by
  simp only [initialState]
  rw [String.data_append, List.getLast?_append_of_ne_nil _ (by decide)]
  decide

/-- When the family changes, the buffer grows by exactly the comment line and
the entry (plus a wrap newline when the entry alone exceeds the limit). -/
theorem emitEntry_src_of_change {st : WPState} {n f : String} {p : ℚ}
    (h : f ≠ st.previousFamily) :
    ∃ w, (emitEntry st n f p).src
      = ((((newline st.src ++ "// ") ++ f) ++ " family\n") ++ entryString n p) ++ w := by
  simp only [emitEntry]
  rw [if_pos h]
  split
  · exact ⟨"\n", rfl⟩
  · exact ⟨"", (str_append_empty _).symm⟩

/-- Identifiers that are well-formed but unpriced leave the state unchanged. -/
theorem processAll_skips {g : String → Option ℚ} :
    ∀ {l₁ : List String}, (∀ m ∈ l₁, g m = none ∧ wellFormed m) →
      ∀ (st : WPState) (rest : List String),
        processAll g st (l₁ ++ rest) = processAll g st rest
  | [], _, _, _ => rfl
  | m :: ms, h, st, rest => by
    obtain ⟨hgm, hwfm⟩ := h m (List.mem_cons_self m ms)
    obtain ⟨f, s, hsp⟩ := wellFormed_iff.mp hwfm
    simp only [List.cons_append, processAll, processInstance_skip hsp hgm]
    exact processAll_skips (fun x hx => h x (List.mem_cons_of_mem m hx)) st rest

theorem writePricing_of_state_ok {ids : List String} {v : String} {g : String → Option ℚ}
    {st' : WPState} (h : writePricingState ids v g = .ok st') :
    writePricing ids v g = .ok (st'.src ++ "\n\x7d\n" ++ "\n") := by
  unfold writePricing
  rw [h]

set_option maxRecDepth 4000 in
/-- **C5**: on `["a.small","a.large","b.small"]`, all priced, the output has
exactly two family-comment lines, `// a family` once and `// b family` once,
each placed before the first entry of its group (and after the previous
group). -/
theorem C5_family_grouping :
    ∃ out,
      writePricing ["a.small", "a.large", "b.small"] "v" (fun _ : String => some (1 : ℚ))
          = .ok out
        ∧ substrCount out " family\n" = 2
        ∧ substrCount out "// a family\n" = 1
        ∧ substrCount out "// b family\n" = 1
        ∧ firstIdx out "// a family\n" < firstIdx out "\"a.large\""
        ∧ firstIdx out "// a family\n" < firstIdx out "\"a.small\""
        ∧ firstIdx out "\"a.small\"" < firstIdx out "// b family\n"
        ∧ firstIdx out "// b family\n" < firstIdx out "\"b.small\"" := by
  refine ⟨"var v = map[string]float64\x7b\n// a family\n\"a.large\":1.000000, \"a.small\":1.000000, \n// b family\n\"b.small\":1.000000, \n\x7d\n\n",
    rfl, ?_, ?_, ?_, ?_, ?_, ?_, ?_⟩ <;> decide

set_option maxRecDepth 8000 in
/-- **C7**: the end-to-end example: prices `c5.large ↦ 0.085`,
`c5.xlarge ↦ 0.17`, `m5.large ↦ 0.096` and variable name
`initialOnDemandPrices` produce a buffer that begins with the declaration
line, shows each price in fixed six-digit decimal form exactly once with the
family comments in front of their groups, and ends with the closing brace
line followed by a blank line. -/
theorem C7_end_to_end :
    ∃ out,
      writePricing ["c5.large", "c5.xlarge", "m5.large"] "initialOnDemandPrices"
          (fun n : String => if n = "c5.large" then some (mkRat 85 1000)
            else if n = "c5.xlarge" then some (mkRat 17 100)
            else if n = "m5.large" then some (mkRat 96 1000) else none)
          = .ok out
        ∧ listStartsWith "var initialOnDemandPrices = map[string]float64\x7b\n".data out.data = true
        ∧ substrCount out "\"c5.large\":0.085000, " = 1
        ∧ substrCount out "\"c5.xlarge\":0.170000, " = 1
        ∧ substrCount out "\"m5.large\":0.096000, " = 1
        ∧ firstIdx out "// c5 family\n" < firstIdx out "\"c5.large\":0.085000, "
        ∧ firstIdx out "// c5 family\n" < firstIdx out "\"c5.xlarge\":0.170000, "
        ∧ firstIdx out "// m5 family\n" < firstIdx out "\"m5.large\":0.096000, "
        ∧ firstIdx out "\"c5.xlarge\":0.170000, " < firstIdx out "// m5 family\n"
        ∧ strEndsWith out "\n\x7d\n\n" = true := by
  refine ⟨"var initialOnDemandPrices = map[string]float64\x7b\n// c5 family\n\"c5.large\":0.085000, \"c5.xlarge\":0.170000, \n// m5 family\n\"m5.large\":0.096000, \n\x7d\n\n",
    rfl, ?_, ?_, ?_, ?_, ?_, ?_, ?_, ?_, ?_⟩ <;> decide

/-- **C8 (as stated) is false**: the identifier `".large"` is accepted by the
two-segment check, its family is the empty string — which is *not* distinct
from the initial `previousFamily` value `""` — so its entry is emitted with
no family-comment line anywhere in the output. -/
theorem C8_counterexample :
    writePricingEntries [".large"] "v" (fun _ : String => some (1 : ℚ)) = [".large"]
      ∧ ∃ out,
          writePricing [".large"] "v" (fun _ : String => some (1 : ℚ)) = .ok out
            ∧ substrCount out "//" = 0 ∧ substrCount out " family" = 0 :=
  ⟨rfl, "var v = map[string]float64\x7b\n\".large\":1.000000, \n\x7d\n\n", rfl, by decide, by decide⟩

/-- **C8 (amended)**: the initial `previousFamily` value `""` is distinct
from every *non-empty* family, so whenever the first emitted identifier (the
lexicographically least priced one) has a non-empty family, its entry is
emitted directly preceded by the comment line of its family. -/
theorem C8_first_entry_commented (ids : List String) (v : String) (g : String → Option ℚ)
    (hwf : ∀ n ∈ ids, wellFormed n) (name : String)
    (hhead : (writePricingEntries ids v g).head? = some name)
    (f sz : List Char) (hsp : splitOnChar '.' name.data = [f, sz]) (hf : f ≠ []) :
    ∃ price rest, g name = some price ∧
      writePricing ids v g = .ok ((("var " ++ v ++ " = map[string]float64\x7b\n")
        ++ ("// " ++ String.mk f ++ " family\n") ++ entryString name price) ++ rest) := by
  have hwfs : ∀ n ∈ sortStrings ids, wellFormed n :=
    fun n hn => hwf n ((sortStrings_perm ids).subset hn)
  obtain ⟨st', hok⟩ := processAll_ok_of_wf (g := g) (sortStrings ids) (initialState v) hwfs
  have hent : writePricingEntries ids v g
      = (sortStrings ids).filter (fun n => (g n).isSome) := by
    rcases writePricingEntries_cases ids v g with he | he
    · rw [he] at hhead
      exact absurd hhead (by simp)
    · exact he
  rw [hent] at hhead
  obtain ⟨es, hfe⟩ : ∃ es, (sortStrings ids).filter (fun n => (g n).isSome) = name :: es := by
    cases hfl : (sortStrings ids).filter (fun n => (g n).isSome) with
    | nil => rw [hfl] at hhead; exact absurd hhead (by simp)
    | cons a as =>
      rw [hfl] at hhead
      simp only [List.head?_cons, Option.some.injEq] at hhead
      exact ⟨as, by rw [hhead]⟩
  obtain ⟨l₁, l₂, hsplit, hskip, hp, -⟩ := List.filter_eq_cons_iff.mp hfe
  obtain ⟨price, hprice⟩ : ∃ p, g name = some p := by
    cases hg : g name with
    | none => rw [hg] at hp; simp at hp
    | some p => exact ⟨p, rfl⟩
  have hskipwf : ∀ m ∈ l₁, g m = none ∧ wellFormed m := by
    intro m hm
    refine ⟨?_, hwfs m (by rw [hsplit]; exact List.mem_append_left _ hm)⟩
    have := hskip m hm
    cases hgm : g m with
    | none => rfl
    | some q => rw [hgm] at this; simp at this
  have hrun : processAll g (initialState v) (sortStrings ids)
      = processAll g (emitEntry (initialState v) name (String.mk f) price) l₂ := by
    rw [hsplit, processAll_skips hskipwf]
    simp only [processAll, processInstance_emit hsp hprice]
  rw [hrun] at hok
  obtain ⟨t, hsrc⟩ := processAll_src_mono hok
  have hfne : String.mk f ≠ (initialState v).previousFamily := by
    intro he
    exact hf (congrArg String.data he)
  obtain ⟨w, hemit⟩ := emitEntry_src_of_change (p := price) (n := name) hfne
  rw [newline_of_ends_nl (initial_src_ends_nl v)] at hemit
  refine ⟨price, (w ++ t) ++ ("\n\x7d\n" ++ "\n"), hprice, ?_⟩
  have hstate : writePricingState ids v g = .ok st' := by
    unfold writePricingState
    rw [hrun]
    exact hok
  rw [writePricing_of_state_ok hstate]
  congr 1
  apply string_eq_of_data_eq
  rw [hsrc, hemit]
  simp only [initialState, String.data_append, List.append_assoc]

theorem C8_witness :
    (∀ n ∈ ["b.c", "a.b"], wellFormed n)
      ∧ (writePricingEntries ["b.c", "a.b"] "v" (fun _ : String => some (1 : ℚ))).head?
          = some "a.b"
      ∧ splitOnChar '.' ("a.b" : String).data = [['a'], ['b']]
      ∧ (['a'] : List Char) ≠ []
      ∧ ∃ price rest, (fun _ : String => some (1 : ℚ)) "a.b" = some price ∧
          writePricing ["b.c", "a.b"] "v" (fun _ : String => some (1 : ℚ))
            = .ok ((("var " ++ "v" ++ " = map[string]float64\x7b\n")
              ++ ("// " ++ String.mk ['a'] ++ " family\n") ++ entryString "a.b" price) ++ rest) :=
  ⟨by decide, by decide, by decide, by decide,
    C8_first_entry_commented ["b.c", "a.b"] "v" (fun _ : String => some (1 : ℚ))
      (by decide) "a.b" (by decide) ['a'] ['b'] (by decide) (by decide)⟩

/-! ## C9: the newline helper at a family change -/

theorem str_ne_append_nl (s : String) : s ++ "\n" ≠ s := by
  intro h
  have := congrArg (fun x : String => x.data.length) h
  simp [String.data_append] at this

theorem data_ne_nil_of_ne_empty {s : String} (h : s ≠ "") : s.data ≠ [] := by
  intro hd
  exact h (string_eq_of_data_eq hd)

theorem newline_of_not_ends_nl {s : String} (h1 : s.data ≠ [])
    (h2 : s.data.getLast? ≠ some '\n') : newline s = s ++ "\n" := by
  unfold newline
  rw [if_neg h1, if_neg h2]

theorem emitEntry_lineLen_of_change {st : WPState} {n f : String} {p : ℚ}
    (h : f ≠ st.previousFamily) :
    (emitEntry st n f p).lineLen
      = if 80 < (entryString n p).length then 0 else (entryString n p).length := by
  simp only [emitEntry]
  rw [if_pos h]
  split
  next h1 => rw [if_pos (by simpa using h1)]
  next h1 =>
    rw [if_neg (by simpa using h1)]
    simp

/-- **C9**: at a family change the renderer first normalises the buffer to
end in a newline — appending one exactly when the buffer is non-empty and
does not already end in `'\n'` — then emits the `// <family> family` comment
line and continues with the line-length counter reset to `0` (so the counter
after the entry is the entry's own width, independent of the previous
counter, with the wrap applied against it alone). -/
theorem C9_family_change_newline (g : String → Option ℚ) (st : WPState) (n : String)
    (f sz : List Char) (p : ℚ)
    (hsp : splitOnChar '.' n.data = [f, sz]) (hg : g n = some p)
    (hfam : String.mk f ≠ st.previousFamily) (hne : st.src ≠ "") :
    (newline st.src).data.getLast? = some '\n'
      ∧ (newline st.src = st.src ++ "\n" ↔ st.src.data.getLast? ≠ some '\n')
      ∧ (newline st.src = st.src ↔ st.src.data.getLast? = some '\n')
      ∧ ∃ st', processInstance g st n = .ok st'
          ∧ (∃ w, st'.src = ((((newline st.src ++ "// ") ++ String.mk f) ++ " family\n")
              ++ entryString n p) ++ w)
          ∧ st'.lineLen
              = if 80 < (entryString n p).length then 0 else (entryString n p).length := by
  have hd : st.src.data ≠ [] := data_ne_nil_of_ne_empty hne
  have hmain : (newline st.src).data.getLast? = some '\n'
      ∧ (newline st.src = st.src ++ "\n" ↔ st.src.data.getLast? ≠ some '\n')
      ∧ (newline st.src = st.src ↔ st.src.data.getLast? = some '\n') := by
    by_cases hl : st.src.data.getLast? = some '\n'
    · rw [newline_of_ends_nl hl]
      refine ⟨hl, ?_, by simp [hl]⟩
      constructor
      · intro h
        exact absurd h.symm (str_ne_append_nl st.src)
      · intro h
        exact absurd hl h
    · rw [newline_of_not_ends_nl hd hl]
      refine ⟨?_, by simp [hl], ?_⟩
      · rw [String.data_append, List.getLast?_append_of_ne_nil _ (by decide)]
        decide
      · constructor
        · intro h
          exact absurd h (str_ne_append_nl st.src)
        · intro h
          exact absurd h hl
  refine ⟨hmain.1, hmain.2.1, hmain.2.2, emitEntry st n (String.mk f) p, ?_, ?_, ?_⟩
  · exact processInstance_emit hsp hg
  · exact emitEntry_src_of_change hfam
  · exact emitEntry_lineLen_of_change hfam

theorem C9_witness :
    splitOnChar '.' ("a.b" : String).data = [['a'], ['b']]
      ∧ (fun _ : String => some (1 : ℚ)) "a.b" = some 1
      ∧ String.mk ['a'] ≠ (initialState "v").previousFamily
      ∧ (initialState "v").src ≠ ""
      ∧ ((newline (initialState "v").src).data.getLast? = some '\n'
          ∧ (newline (initialState "v").src = (initialState "v").src ++ "\n"
              ↔ (initialState "v").src.data.getLast? ≠ some '\n')
          ∧ (newline (initialState "v").src = (initialState "v").src
              ↔ (initialState "v").src.data.getLast? = some '\n')
          ∧ ∃ st', processInstance (fun _ : String => some (1 : ℚ)) (initialState "v") "a.b"
                = .ok st'
              ∧ (∃ w, st'.src = ((((newline (initialState "v").src ++ "// ")
                  ++ String.mk ['a']) ++ " family\n") ++ entryString "a.b" 1) ++ w)
              ∧ st'.lineLen = if 80 < (entryString "a.b" 1).length then 0
                  else (entryString "a.b" 1).length) :=
  ⟨by decide, rfl, by decide, by decide,
    C9_family_change_newline (fun _ : String => some (1 : ℚ)) (initialState "v") "a.b"
      ['a'] ['b'] 1 (by decide) rfl (by decide) (by decide)⟩

/-! ## C6: no rendered number contains a newline -/

theorem digitChar_ne_nl (d : Nat) : Nat.digitChar d ≠ '\n' := by
  rcases Nat.lt_or_ge d 16 with h | h
  · interval_cases d <;> decide
  · obtain ⟨n, rfl⟩ := Nat.exists_eq_add_of_le' h
    have hstar : Nat.digitChar (n + 16) = '*' := rfl
    rw [hstar]
    decide

theorem toDigitsCore_no_nl : ∀ (fuel n : Nat) (acc : List Char),
    (∀ c ∈ acc, c ≠ '\n') → ∀ c ∈ Nat.toDigitsCore 10 fuel n acc, c ≠ '\n'
  | 0, n, acc, hacc => by
    intro c hc
    simp only [Nat.toDigitsCore] at hc
    exact hacc c hc
  | fuel + 1, n, acc, hacc => by
    intro c hc
    simp only [Nat.toDigitsCore] at hc
    split at hc
    · rcases List.mem_cons.mp hc with rfl | hc'
      · exact digitChar_ne_nl _
      · exact hacc c hc'
    · refine toDigitsCore_no_nl fuel (n / 10) _ ?_ c hc
      intro d hd
      rcases List.mem_cons.mp hd with rfl | hd'
      · exact digitChar_ne_nl _
      · exact hacc d hd'

theorem natRepr_no_nl (n : Nat) : ¬ '\n' ∈ (natRepr n).data := by
  intro hc
  have hdata : (natRepr n).data = Nat.toDigitsCore 10 (n + 1) n [] := rfl
  rw [hdata] at hc
  exact toDigitsCore_no_nl (n + 1) n [] (by simp) '\n' hc rfl

theorem no_nl_append {a b : List Char} (ha : ¬ '\n' ∈ a) (hb : ¬ '\n' ∈ b) :
    ¬ '\n' ∈ a ++ b := fun h => (List.mem_append.mp h).elim ha hb

theorem pad6_no_nl (n : Nat) : ¬ '\n' ∈ (pad6 n).data := by
  intro hc
  simp only [pad6, String.data_append] at hc
  rcases List.mem_append.mp hc with h | h
  · exact absurd (List.eq_of_mem_replicate h) (by decide)
  · exact natRepr_no_nl n h

theorem formatFloatNonneg_no_nl (q : ℚ) : ¬ '\n' ∈ (formatFloatNonneg q).data := by
  show ¬ '\n' ∈ ((natRepr (microsOf q / 1000000) ++ ".") ++ pad6 (microsOf q % 1000000)).data
  rw [String.data_append, String.data_append]
  exact no_nl_append (no_nl_append (natRepr_no_nl _) (by decide)) (pad6_no_nl _)

theorem formatFloat_no_nl (q : ℚ) : ¬ '\n' ∈ (formatFloat q).data := by
  unfold formatFloat
  split_ifs
  · rw [String.data_append]
    exact no_nl_append (by decide) (formatFloatNonneg_no_nl _)
  · exact formatFloatNonneg_no_nl q

theorem entryString_no_nl {n : String} (hnn : ¬ '\n' ∈ n.data) (p : ℚ) :
    ¬ '\n' ∈ (entryString n p).data := by
  show ¬ '\n' ∈ (((("\"" ++ n) ++ "\":") ++ formatFloat p) ++ ", ").data
  rw [String.data_append, String.data_append, String.data_append, String.data_append]
  exact no_nl_append (no_nl_append (no_nl_append (no_nl_append (by decide) hnn)
    (by decide)) (formatFloat_no_nl p)) (by decide)

/-- The entry text is the identifier plus quoting, colon, price and
separator. -/
theorem entryString_data_length (n : String) (p : ℚ) :
    (entryString n p).data.length = n.data.length + (formatFloat p).data.length + 5 := by
  show (((("\"" ++ n) ++ "\":") ++ formatFloat p) ++ ", ").data.length
    = n.data.length + (formatFloat p).data.length + 5
  simp only [String.data_append, List.length_append, List.length_cons, List.length_nil]
  omega

/-! ## C6: the line structure of the buffer -/

/-- `joinedLines ls cur` is the text whose completed lines are `ls` (each
terminated by a newline) followed by the partial line `cur`. -/
def joinedLines : List (List Char) → List Char → List Char
  | [], cur => cur
  | l :: ls, cur => l ++ '\n' :: joinedLines ls cur

theorem joinedLines_append : ∀ (ls : List (List Char)) (cur x : List Char),
    joinedLines ls cur ++ x = joinedLines ls (cur ++ x)
  | [], _, _ => rfl
  | l :: ls, cur, x =>
    (List.append_assoc l ('\n' :: joinedLines ls cur) x).trans
      (congrArg (fun t => l ++ '\n' :: t) (joinedLines_append ls cur x))

theorem joinedLines_concat : ∀ (ls : List (List Char)) (cur : List Char),
    joinedLines ls cur ++ ['\n'] = joinedLines (ls ++ [cur]) []
  | [], _ => rfl
  | l :: ls, cur =>
    (List.append_assoc l ('\n' :: joinedLines ls cur) ['\n']).trans
      (congrArg (fun t => l ++ '\n' :: t) (joinedLines_concat ls cur))

theorem joinedLines_lists_append : ∀ (ls₁ ls₂ : List (List Char)) (cur : List Char),
    joinedLines (ls₁ ++ ls₂) cur = joinedLines ls₁ (joinedLines ls₂ cur)
  | [], _, _ => rfl
  | l :: ls₁, ls₂, cur =>
    congrArg (fun t => l ++ '\n' :: t) (joinedLines_lists_append ls₁ ls₂ cur)

theorem joinedLines_ne_nil (l : List Char) (ls : List (List Char)) (cur : List Char) :
    joinedLines (l :: ls) cur ≠ [] := by
  show l ++ '\n' :: joinedLines ls cur ≠ []
  intro h
  exact absurd (List.append_eq_nil.mp h).2 (by simp)

theorem joinedLines_getLast?_nil : ∀ (l : List Char) (ls : List (List Char)),
    (joinedLines (l :: ls) []).getLast? = some '\n'
  | l, [] => by
    show (l ++ '\n' :: joinedLines [] ([] : List Char)).getLast? = some '\n'
    rw [List.getLast?_append_of_ne_nil _ (by simp)]
    rfl
  | l, l' :: ls => by
    show (l ++ '\n' :: joinedLines (l' :: ls) []).getLast? = some '\n'
    rw [List.getLast?_append_of_ne_nil _ (by simp)]
    show (['\n'] ++ joinedLines (l' :: ls) []).getLast? = some '\n'
    rw [List.getLast?_append_of_ne_nil _ (joinedLines_ne_nil l' ls [])]
    exact joinedLines_getLast?_nil l' ls


/-- Splitting at the separator undoes joining, when no line contains the
separator. -/
theorem splitOnChar_no_sep {sep : Char} : ∀ {l : List Char}, ¬ sep ∈ l →
    splitOnChar sep l = [l]
  | [], _ => rfl
  | c :: cs, h => by
    have hc : ¬ c = sep := fun he => h (he ▸ List.mem_cons_self c cs)
    have hcs : ¬ sep ∈ cs := fun hm => h (List.mem_cons_of_mem c hm)
    simp only [splitOnChar, if_neg hc, splitOnChar_no_sep hcs]

theorem splitOnChar_line {sep : Char} : ∀ {l : List Char}, ¬ sep ∈ l →
    ∀ (rest : List Char), splitOnChar sep (l ++ sep :: rest) = l :: splitOnChar sep rest
  | [], _, rest => by simp [splitOnChar]
  | c :: cs, h, rest => by
    have hc : ¬ c = sep := fun he => h (he ▸ List.mem_cons_self c cs)
    have hcs : ¬ sep ∈ cs := fun hm => h (List.mem_cons_of_mem c hm)
    have hrec : splitOnChar sep (cs.append (sep :: rest)) = cs :: splitOnChar sep rest :=
      splitOnChar_line hcs rest
    simp only [List.cons_append, splitOnChar, if_neg hc, hrec]

theorem splitOnChar_joinedLines : ∀ {ls : List (List Char)} {cur : List Char},
    (∀ l ∈ ls, ¬ '\n' ∈ l) → ¬ '\n' ∈ cur →
    splitOnChar '\n' (joinedLines ls cur) = ls ++ [cur]
  | [], cur, _, hcur => splitOnChar_no_sep hcur
  | l :: ls, cur, hls, hcur => by
    simp only [joinedLines]
    rw [splitOnChar_line (hls l (List.mem_cons_self l ls)) _]
    rw [splitOnChar_joinedLines (fun x hx => hls x (List.mem_cons_of_mem l hx)) hcur]
    simp

theorem splitOnChar_ne_nil (sep : Char) : ∀ (l : List Char), splitOnChar sep l ≠ []
  | [] => by simp [splitOnChar]
  | c :: cs => by
    simp only [splitOnChar]
    split_ifs
    · simp
    · cases h : splitOnChar sep cs <;> simp

theorem splitOnChar_single {sep : Char} : ∀ {l a : List Char},
    splitOnChar sep l = [a] → l = a
  | [], a, h => by
    simp only [splitOnChar, List.cons.injEq] at h
    exact h.1
  | c :: cs, a, h => by
    by_cases hc : c = sep
    · rw [show splitOnChar sep (c :: cs) = [] :: splitOnChar sep cs by
        simp [splitOnChar, hc]] at h
      obtain ⟨-, h2⟩ := List.cons_eq_cons.mp h
      exact absurd h2 (splitOnChar_ne_nil sep cs)
    · cases hcs : splitOnChar sep cs with
      | nil => exact absurd hcs (splitOnChar_ne_nil sep cs)
      | cons l ls =>
        rw [show splitOnChar sep (c :: cs) = (c :: l) :: ls by
          simp [splitOnChar, hc, hcs]] at h
        obtain ⟨ha, hls⟩ := List.cons_eq_cons.mp h
        subst hls
        rw [← ha, splitOnChar_single hcs]

/-- A two-segment split reassembles to the original character sequence. -/
theorem splitOnChar_pair {sep : Char} : ∀ {l a b : List Char},
    splitOnChar sep l = [a, b] → l = a ++ sep :: b
  | [], a, b, h => by simp [splitOnChar] at h
  | c :: cs, a, b, h => by
    by_cases hc : c = sep
    · subst hc
      rw [show splitOnChar c (c :: cs) = [] :: splitOnChar c cs by
        simp [splitOnChar]] at h
      obtain ⟨ha, hb⟩ := List.cons_eq_cons.mp h
      rw [← ha, List.nil_append, splitOnChar_single hb]
    · cases hcs : splitOnChar sep cs with
      | nil => exact absurd hcs (splitOnChar_ne_nil sep cs)
      | cons l ls =>
        rw [show splitOnChar sep (c :: cs) = (c :: l) :: ls by
          simp [splitOnChar, hc, hcs]] at h
        obtain ⟨ha, hls⟩ := List.cons_eq_cons.mp h
        have hcs' : cs = l ++ sep :: b := splitOnChar_pair (by rw [hcs, hls])
        rw [← ha, hcs']
        simp

/-! ## C6: the loop invariant on line structure -/

/-- The result of the entry write when the family changed. -/
theorem emitEntry_eq_of_change {st : WPState} {n f : String} {p : ℚ}
    (h : f ≠ st.previousFamily) :
    emitEntry st n f p =
      if 80 < (entryString n p).length then
        { src := ((((newline st.src ++ "// ") ++ f) ++ " family\n") ++ entryString n p) ++ "\n"
          lineLen := 0
          previousFamily := f
          entries := st.entries ++ [n] }
      else
        { src := (((newline st.src ++ "// ") ++ f) ++ " family\n") ++ entryString n p
          lineLen := (entryString n p).length
          previousFamily := f
          entries := st.entries ++ [n] } := by
  simp only [emitEntry]
  rw [if_pos h]
  by_cases hw : 80 < (entryString n p).length
  · rw [if_pos hw, if_pos (show 80 < 0 + (entryString n p).length by omega)]
  · rw [if_neg hw, if_neg (show ¬ 80 < 0 + (entryString n p).length by omega)]
    simp

/-- The result of the entry write when the family did not change. -/
theorem emitEntry_eq_of_same {st : WPState} {n f : String} {p : ℚ}
    (h : ¬ f ≠ st.previousFamily) :
    emitEntry st n f p =
      if 80 < st.lineLen + (entryString n p).length then
        { src := (st.src ++ entryString n p) ++ "\n"
          lineLen := 0
          previousFamily := st.previousFamily
          entries := st.entries ++ [n] }
      else
        { src := st.src ++ entryString n p
          lineLen := st.lineLen + (entryString n p).length
          previousFamily := st.previousFamily
          entries := st.entries ++ [n] } := by
  simp only [emitEntry]
  rw [if_neg h]

/-- The invariant maintained along the loop: the buffer consists of the
header line `hl`, completed middle lines each free of newlines and of length
at most `80 + B`, and a current partial line tracked (conservatively) by the
`lineLen` counter, which never exceeds 80 at a loop boundary. -/
def LineInv (B : Nat) (hl : List Char) (st : WPState) : Prop :=
  ∃ rest cur,
    st.src.data = joinedLines (hl :: rest) cur
      ∧ (∀ l ∈ rest, ¬ '\n' ∈ l ∧ l.length ≤ 80 + B)
      ∧ ¬ '\n' ∈ cur
      ∧ cur.length ≤ st.lineLen
      ∧ st.lineLen ≤ 80

theorem emitEntry_inv {B : Nat} {hl : List Char} {st : WPState} {n : String}
    {f sz : List Char} {p : ℚ}
    (hsp : splitOnChar '.' n.data = [f, sz])
    (hnn : ¬ '\n' ∈ n.data)
    (heB : (entryString n p).data.length ≤ B)
    (hinv : LineInv B hl st) :
    LineInv B hl (emitEntry st n (String.mk f) p) := by
  obtain ⟨rest, cur, hdata, hrest, hcur, hclen, hll⟩ := hinv
  have hennl : ¬ '\n' ∈ (entryString n p).data := entryString_no_nl hnn p
  have hpair : n.data = f ++ '.' :: sz := splitOnChar_pair hsp
  have hfnl : ¬ '\n' ∈ f := fun hm => hnn (by rw [hpair]; exact List.mem_append_left _ hm)
  have hflen : n.data.length = f.length + 1 + sz.length := by
    rw [hpair, List.length_append, List.length_cons]
    omega
  have helen : (entryString n p).data.length
      = n.data.length + (formatFloat p).data.length + 5 := entryString_data_length n p
  have hlen_eq : (entryString n p).length = (entryString n p).data.length := rfl
  by_cases hfam : String.mk f ≠ st.previousFamily
  · -- family change: the newline normalisation and the comment line
    have hnl : ∃ rest₁, (newline st.src).data = joinedLines (hl :: rest₁) []
        ∧ ∀ l ∈ rest₁, ¬ '\n' ∈ l ∧ l.length ≤ 80 + B := by
      by_cases hc : cur = []
      · subst hc
        rw [newline_of_ends_nl (by rw [hdata]; exact joinedLines_getLast?_nil hl rest)]
        exact ⟨rest, hdata, hrest⟩
      · have hsplit_src : st.src.data = joinedLines (hl :: rest) [] ++ cur := by
          rw [hdata]
          exact (joinedLines_append (hl :: rest) [] cur).symm
        obtain ⟨c, hcl⟩ : ∃ c, cur.getLast? = some c := by
          cases hcl : cur.getLast? with
          | none => exact absurd (List.getLast?_eq_none_iff.mp hcl) hc
          | some c => exact ⟨c, rfl⟩
        have hlast : st.src.data.getLast? = some c := by
          rw [hsplit_src, List.getLast?_append_of_ne_nil _ hc]
          exact hcl
        have hcne : c ≠ '\n' := fun he => hcur (he ▸ List.mem_of_mem_getLast? hcl)
        have hnlapp : newline st.src = st.src ++ "\n" :=
          newline_of_not_ends_nl
            (by rw [hdata]; exact joinedLines_ne_nil hl rest cur)
            (by rw [hlast]; exact fun he => hcne (Option.some.inj he))
        refine ⟨rest ++ [cur], ?_, ?_⟩
        · rw [hnlapp, String.data_append, hdata]
          calc joinedLines (hl :: rest) cur ++ ("\n" : String).data
              = joinedLines ((hl :: rest) ++ [cur]) [] := joinedLines_concat _ _
            _ = joinedLines (hl :: (rest ++ [cur])) [] := by rw [List.cons_append]
        · intro l hm
          rcases List.mem_append.mp hm with h' | h'
          · exact hrest l h'
          · rw [List.mem_singleton.mp h']
            exact ⟨hcur, by omega⟩
    obtain ⟨rest₁, hjr, hrest₁⟩ := hnl
    have hmkf : (String.mk f).data = f := rfl
    have hCnl : ¬ '\n' ∈ ("// " : String).data ++ (f ++ (" family" : String).data) :=
      no_nl_append (by decide) (no_nl_append hfnl (by decide))
    have hClen : (("// " : String).data ++ (f ++ (" family" : String).data)).length
        ≤ 80 + B := by
      have h3 : (("// " : String).data).length = 3 := rfl
      have h7 : (((" family" : String).data)).length = 7 := rfl
      simp only [List.length_append, h3, h7]
      omega
    have hst1 : ((((newline st.src) ++ "// ") ++ String.mk f) ++ " family\n").data
        = joinedLines (hl :: (rest₁
            ++ [("// " : String).data ++ (f ++ (" family" : String).data)])) [] := by
      rw [String.data_append, String.data_append, String.data_append, hjr, hmkf]
      have hsplitlit : (" family\n" : String).data = (" family" : String).data ++ ['\n'] := by
        decide
      rw [hsplitlit]
      calc ((joinedLines (hl :: rest₁) [] ++ ("// " : String).data) ++ f)
            ++ ((" family" : String).data ++ ['\n'])
          = (joinedLines (hl :: rest₁) []
              ++ (("// " : String).data ++ (f ++ (" family" : String).data))) ++ ['\n'] := by
            simp [List.append_assoc]
        _ = joinedLines (hl :: rest₁)
              (("// " : String).data ++ (f ++ (" family" : String).data)) ++ ['\n'] := by
            rw [joinedLines_append, List.nil_append]
        _ = joinedLines ((hl :: rest₁)
              ++ [("// " : String).data ++ (f ++ (" family" : String).data)]) [] :=
            joinedLines_concat _ _
        _ = joinedLines (hl :: (rest₁
              ++ [("// " : String).data ++ (f ++ (" family" : String).data)])) [] := by
            rw [List.cons_append]
    by_cases hw : 80 < (entryString n p).length
    · -- the entry alone overflows the line: it is completed at once
      rw [emitEntry_eq_of_change hfam, if_pos hw]
      refine ⟨(rest₁ ++ [("// " : String).data ++ (f ++ (" family" : String).data)])
          ++ [(entryString n p).data], [], ?_, ?_, by simp,
          show ([] : List Char).length ≤ 0 by simp, show (0 : Nat) ≤ 80 by omega⟩
      · show (((((newline st.src ++ "// ") ++ String.mk f) ++ " family\n")
            ++ entryString n p) ++ "\n").data = _
        rw [String.data_append, String.data_append, hst1]
        calc (joinedLines (hl :: (rest₁
                ++ [("// " : String).data ++ (f ++ (" family" : String).data)])) []
              ++ (entryString n p).data) ++ ("\n" : String).data
            = joinedLines (hl :: (rest₁
                ++ [("// " : String).data ++ (f ++ (" family" : String).data)]))
                (entryString n p).data ++ ['\n'] := by
              rw [joinedLines_append, List.nil_append]
          _ = joinedLines ((hl :: (rest₁
                ++ [("// " : String).data ++ (f ++ (" family" : String).data)]))
                ++ [(entryString n p).data]) [] := joinedLines_concat _ _
          _ = joinedLines (hl :: ((rest₁
                ++ [("// " : String).data ++ (f ++ (" family" : String).data)])
                ++ [(entryString n p).data])) [] := by rw [List.cons_append]
      · intro l hm
        rcases List.mem_append.mp hm with h' | h'
        · rcases List.mem_append.mp h' with h'' | h''
          · exact hrest₁ l h''
          · rw [List.mem_singleton.mp h'']
            exact ⟨hCnl, hClen⟩
        · rw [List.mem_singleton.mp h']
          exact ⟨hennl, by omega⟩
    · -- no wrap: the entry starts the new partial line
      rw [emitEntry_eq_of_change hfam, if_neg hw]
      refine ⟨rest₁ ++ [("// " : String).data ++ (f ++ (" family" : String).data)],
        (entryString n p).data, ?_, ?_, hennl,
        show (entryString n p).data.length ≤ (entryString n p).length from le_of_eq hlen_eq.symm,
        show (entryString n p).length ≤ 80 by omega⟩
      · show ((((newline st.src ++ "// ") ++ String.mk f) ++ " family\n")
            ++ entryString n p).data = _
        rw [String.data_append, hst1, joinedLines_append, List.nil_append]
      · intro l hm
        rcases List.mem_append.mp hm with h' | h'
        · exact hrest₁ l h'
        · rw [List.mem_singleton.mp h']
          exact ⟨hCnl, hClen⟩
  · -- same family: the entry extends the current line
    by_cases hw : 80 < st.lineLen + (entryString n p).length
    · -- wrap: the current line is completed
      rw [emitEntry_eq_of_same hfam, if_pos hw]
      refine ⟨rest ++ [cur ++ (entryString n p).data], [], ?_, ?_, by simp,
        show ([] : List Char).length ≤ 0 by simp, show (0 : Nat) ≤ 80 by omega⟩
      · show ((st.src ++ entryString n p) ++ "\n").data = _
        rw [String.data_append, String.data_append, hdata]
        calc (joinedLines (hl :: rest) cur ++ (entryString n p).data) ++ ("\n" : String).data
            = joinedLines (hl :: rest) (cur ++ (entryString n p).data) ++ ['\n'] := by
              rw [joinedLines_append]
          _ = joinedLines ((hl :: rest) ++ [cur ++ (entryString n p).data]) [] :=
              joinedLines_concat _ _
          _ = joinedLines (hl :: (rest ++ [cur ++ (entryString n p).data])) [] := by
              rw [List.cons_append]
      · intro l hm
        rcases List.mem_append.mp hm with h' | h'
        · exact hrest l h'
        · rw [List.mem_singleton.mp h']
          refine ⟨no_nl_append hcur hennl, ?_⟩
          rw [List.length_append]
          omega
    · -- no wrap: the current line grows
      rw [emitEntry_eq_of_same hfam, if_neg hw]
      refine ⟨rest, cur ++ (entryString n p).data, ?_, hrest,
        no_nl_append hcur hennl, ?_, ?_⟩
      · show (st.src ++ entryString n p).data = _
        rw [String.data_append, hdata, joinedLines_append]
      · show (cur ++ (entryString n p).data).length ≤ st.lineLen + (entryString n p).length
        rw [List.length_append]
        omega
      · show st.lineLen + (entryString n p).length ≤ 80
        omega

theorem processInstance_inv {g : String → Option ℚ} {B : Nat} {hl : List Char}
    {st st1 : WPState} {n : String}
    (hB : ∀ p, g n = some p → (entryString n p).data.length ≤ B)
    (hnn : ¬ '\n' ∈ n.data)
    (h : processInstance g st n = .ok st1)
    (hinv : LineInv B hl st) : LineInv B hl st1 := by
  by_cases hwf : wellFormed n
  · obtain ⟨f, sz, hsp⟩ := wellFormed_iff.mp hwf
    cases hg : g n with
    | none =>
      rw [processInstance_skip hsp hg] at h
      injection h with h'
      rw [← h']
      exact hinv
    | some p =>
      rw [processInstance_emit hsp hg] at h
      injection h with h'
      rw [← h']
      exact emitEntry_inv hsp hnn (hB p hg) hinv
  · obtain ⟨t, he⟩ := processInstance_malformed g st hwf
    rw [he] at h
    exact absurd h (by simp)

theorem processAll_inv {g : String → Option ℚ} {B : Nat} {hl : List Char} :
    ∀ {l : List String} {st st' : WPState},
      (∀ n ∈ l, ¬ '\n' ∈ n.data ∧ ∀ p, g n = some p → (entryString n p).data.length ≤ B) →
      processAll g st l = .ok st' → LineInv B hl st → LineInv B hl st'
  | [], st, st', _, h, hinv => by
    simp only [processAll, Except.ok.injEq] at h
    rw [← h]
    exact hinv
  | n :: rest, st, st', hl2, h, hinv => by
    obtain ⟨st1, hpi, hrest⟩ := processAll_cons_ok h
    exact processAll_inv (fun m hm => hl2 m (List.mem_cons_of_mem n hm)) hrest
      (processInstance_inv (hl2 n (List.mem_cons_self n rest)).2
        (hl2 n (List.mem_cons_self n rest)).1 hpi hinv)

/-- The width of the entry emitted for an identifier (0 when unpriced). -/
def entryWidth (g : String → Option ℚ) (n : String) : Nat :=
  match g n with
  | some p => (entryString n p).length
  | none => 0

/-- The largest width among the entries actually emitted. -/
def maxEntryWidth (ids : List String) (v : String) (g : String → Option ℚ) : Nat :=
  ((writePricingEntries ids v g).map (entryWidth g)).foldr max 0

theorem le_foldr_max : ∀ {l : List Nat} {a : Nat}, a ∈ l → a ≤ l.foldr max 0
  | [], a, h => absurd h (List.not_mem_nil a)
  | _ :: t, a, h => by
    rcases List.mem_cons.mp h with rfl | h'
    · exact le_max_left _ _
    · exact le_trans (le_foldr_max h') (le_max_right _ _)

/-- The first line of the output: the declaration header. -/
def headerLine (v : String) : List Char :=
  ("var " : String).data ++ (v.data ++ (" = map[string]float64\x7b" : String).data)

/-- **C6 (amended)**: when the variable name and the identifiers contain no
newline character, every output line other than the opening declaration line
has length at most `80` plus the width of the widest emitted entry.  (The
declaration line must be excluded: its length grows with the variable name,
see the counterexample.) -/
theorem C6_line_bound (ids : List String) (v : String) (g : String → Option ℚ)
    (hv : ¬ '\n' ∈ v.data) (hids : ∀ n ∈ ids, ¬ '\n' ∈ n.data)
    (out : String) (hout : writePricing ids v g = .ok out) :
    ∀ l ∈ (linesOf out).tail, l.length ≤ 80 + maxEntryWidth ids v g := by
  cases hst : writePricingState ids v g with
  | error e =>
    unfold writePricing at hout
    rw [hst] at hout
    exact absurd hout (by simp)
  | ok st' =>
    have hst' : processAll g (initialState v) (sortStrings ids) = .ok st' := hst
    have hout_eq : out = st'.src ++ "\n\x7d\n" ++ "\n" := by
      rw [writePricing_of_state_ok hst] at hout
      exact (Except.ok.inj hout).symm
    have hent : writePricingEntries ids v g = st'.entries := by
      unfold writePricingEntries
      rw [hst]
    have hBd : ∀ n ∈ sortStrings ids, ¬ '\n' ∈ n.data ∧ ∀ p, g n = some p →
        (entryString n p).data.length ≤ maxEntryWidth ids v g := by
      intro n hn
      refine ⟨hids n ((sortStrings_perm ids).subset hn), ?_⟩
      intro p hp
      have hmem : n ∈ writePricingEntries ids v g := by
        rw [hent, processAll_ok_entries hst']
        refine List.mem_append_right _ ?_
        exact List.mem_filter.mpr ⟨hn, by rw [hp]; rfl⟩
      have hle := le_foldr_max (List.mem_map_of_mem (entryWidth g) hmem)
      have hwidth : entryWidth g n = (entryString n p).data.length := by
        unfold entryWidth
        rw [hp]
        rfl
      rw [← hwidth]
      exact hle
    have hinv0 : LineInv (maxEntryWidth ids v g) (headerLine v) (initialState v) := by
      refine ⟨[], [], ?_, by simp, by simp,
        show ([] : List Char).length ≤ 0 by simp, show (0 : Nat) ≤ 80 by omega⟩
      show (("var " ++ v) ++ " = map[string]float64\x7b\n").data
          = joinedLines [headerLine v] []
      rw [String.data_append]
      have hsplitlit : (" = map[string]float64\x7b\n" : String).data
          = (" = map[string]float64\x7b" : String).data ++ ['\n'] := by decide
      rw [hsplitlit]
      show (("var " ++ v).data) ++ ((" = map[string]float64\x7b" : String).data ++ ['\n'])
          = headerLine v ++ '\n' :: []
      rw [String.data_append]
      unfold headerLine
      simp [List.append_assoc]
    have hinvf := processAll_inv hBd hst' hinv0
    obtain ⟨rest, cur, hdata, hrest, hcur, hclen, hll⟩ := hinvf
    have hout_data : out.data
        = joinedLines (headerLine v :: (rest ++ [cur, ['}'], []])) [] := by
      rw [hout_eq, String.data_append, String.data_append, hdata]
      calc (joinedLines (headerLine v :: rest) cur ++ ("\n\x7d\n" : String).data)
            ++ ("\n" : String).data
          = joinedLines (headerLine v :: rest) cur ++ (['\n', '}', '\n'] ++ ['\n']) := by
            rw [List.append_assoc]
        _ = joinedLines (headerLine v :: rest) (cur ++ (['\n', '}', '\n'] ++ ['\n'])) := by
            rw [joinedLines_append]
        _ = joinedLines ((headerLine v :: rest) ++ [cur, ['}'], []]) [] :=
            (joinedLines_lists_append (headerLine v :: rest) [cur, ['}'], []] []).symm
        _ = joinedLines (headerLine v :: (rest ++ [cur, ['}'], []])) [] := by
            rw [List.cons_append]
    have hhl_free : ¬ '\n' ∈ headerLine v := by
      unfold headerLine
      exact no_nl_append (by decide) (no_nl_append hv (by decide))
    have hlines : linesOf out = (headerLine v :: (rest ++ [cur, ['}'], []])) ++ [[]] := by
      unfold linesOf
      rw [hout_data]
      refine splitOnChar_joinedLines ?_ (by simp)
      intro l hm
      rcases List.mem_cons.mp hm with rfl | h'
      · exact hhl_free
      rcases List.mem_append.mp h' with h'' | h''
      · exact (hrest l h'').1
      simp at h''
      rcases h'' with rfl | rfl | rfl
      · exact hcur
      · decide
      · decide
    intro l hm
    rw [hlines, List.cons_append, List.tail_cons] at hm
    rcases List.mem_append.mp hm with h' | h'
    · rcases List.mem_append.mp h' with h'' | h''
      · exact (hrest l h'').2
      simp at h''
      rcases h'' with rfl | rfl | rfl
      · omega
      · show ([ '}' ] : List Char).length ≤ 80 + maxEntryWidth ids v g
        simp
        omega
      · simp
    · rw [List.mem_singleton.mp h']
      simp

set_option maxRecDepth 8000 in
/-- **C6 (as stated) is false**: with a 100-character variable name and the
single identifier `a.b` priced `1.0` (entry width 16), the declaration line
is 126 characters long, exceeding `80 + 16`. -/
theorem C6_counterexample :
    writePricingEntries ["a.b"] (String.mk (List.replicate 100 'a'))
        (fun _ : String => some (1 : ℚ)) = ["a.b"]
      ∧ (entryString "a.b" 1).length = 16
      ∧ maxEntryWidth ["a.b"] (String.mk (List.replicate 100 'a'))
          (fun _ : String => some (1 : ℚ)) = 16
      ∧ ∃ out,
          writePricing ["a.b"] (String.mk (List.replicate 100 'a'))
              (fun _ : String => some (1 : ℚ)) = .ok out
            ∧ ∃ l ∈ linesOf out, 80 + 16 < l.length :=
  ⟨rfl, rfl, rfl,
    "var " ++ String.mk (List.replicate 100 'a')
      ++ " = map[string]float64\x7b\n// a family\n\"a.b\":1.000000, \n\x7d\n\n",
    rfl, by decide⟩

theorem C6_witness :
    (¬ '\n' ∈ ("v" : String).data)
      ∧ (∀ n ∈ ["a.b"], ¬ '\n' ∈ n.data)
      ∧ writePricing ["a.b"] "v" (fun _ : String => some (1 : ℚ))
          = .ok "var v = map[string]float64\x7b\n// a family\n\"a.b\":1.000000, \n\x7d\n\n"
      ∧ ∀ l ∈ (linesOf
            "var v = map[string]float64\x7b\n// a family\n\"a.b\":1.000000, \n\x7d\n\n").tail,
          l.length ≤ 80 + maxEntryWidth ["a.b"] "v" (fun _ : String => some (1 : ℚ)) :=
  ⟨by decide, by decide, rfl,
    C6_line_bound ["a.b"] "v" (fun _ : String => some (1 : ℚ)) (by decide) (by decide)
      _ rfl⟩

end PricesGen
